import Mathlib

/-!
Verification of the core logic of the uke-tui repository (a ukulele chord
viewer): chord definition parsing and aliasing (src/chords.rs), the shared
fret-window selection and batch lookup (src/tui.rs, App::lookup), and the
greedy grid packer (src/tui.rs, combine_diagrams_grid).

Machine integers (`u8`) are modelled as `Nat`; where overflow matters the
wrap-around of release-mode Rust is made explicit with `% 256` (a debug
build would panic at the same spot, so in either build profile the
mathematical value is not produced there).
-/

namespace UkeTui

/-- ASCII whitespace test (space, tab, newline, carriage return), the
whitespace the chord files and queries use. -/
def isWS (c : Char) : Bool :=
  c = ' ' || c = '\t' || c = '\n' || c = '\r'

/-- Remove leading and trailing whitespace from a character list. -/
def trimChars (l : List Char) : List Char :=
  ((l.dropWhile isWS).reverse.dropWhile isWS).reverse

/-- Model of Rust `str::trim`. -/
def trimStr (s : String) : String :=
  String.mk (trimChars s.data)

/-- Accumulator loop for `splitWS`: collect maximal runs of
non-whitespace characters, discarding the separators. -/
def wordsAux : List Char → List Char → List String
  | [], acc => if acc = [] then [] else [String.mk acc.reverse]
  | c :: cs, acc =>
    if isWS c then
      if acc = [] then wordsAux cs [] else String.mk acc.reverse :: wordsAux cs []
    else wordsAux cs (c :: acc)

/-- Model of Rust `str::split_whitespace` (no empty fragments). -/
def splitWS (s : String) : List String :=
  wordsAux s.data []

/-- Accumulator loop for `splitComma`. -/
def splitCommaAux : List Char → List Char → List String
  | [], acc => [String.mk acc.reverse]
  | c :: cs, acc =>
    if c = ',' then String.mk acc.reverse :: splitCommaAux cs []
    else splitCommaAux cs (c :: acc)

/-- Model of Rust `str::split(',')`: the fragments between commas, empty
fragments kept. -/
def splitComma (s : String) : List String :=
  splitCommaAux s.data []

/-- ASCII lower-casing on code points, as used byte-wise by Rust's
`eq_ignore_ascii_case`: code points 65..=90 (A..Z) are shifted by 32,
everything else is unchanged. -/
def lowerNat (n : Nat) : Nat :=
  if 65 ≤ n ∧ n ≤ 90 then n + 32 else n

/-- Model of Rust `str::eq_ignore_ascii_case`: the two strings are equal
after ASCII-lower-casing each code point. -/
def eqIgnoreAsciiCase (s t : String) : Bool :=
  s.data.map (fun c => lowerNat c.toNat) = t.data.map (fun c => lowerNat c.toNat)

/-- ASCII upper-casing of one character (a..z shifted down by 32). -/
def asciiUpperChar (c : Char) : Char :=
  if 97 ≤ c.toNat ∧ c.toNat ≤ 122 then Char.ofNat (c.toNat - 32) else c

/-- ASCII lower-casing of one character (A..Z shifted up by 32). -/
def asciiLowerChar (c : Char) : Char :=
  if 65 ≤ c.toNat ∧ c.toNat ≤ 90 then Char.ofNat (c.toNat + 32) else c

/-- ASCII upper-casing of a string (the `name.upper()` of the spec,
restricted to ASCII letters, which is all the chord names use). -/
def asciiUpperStr (s : String) : String :=
  String.mk (s.data.map asciiUpperChar)

/-- ASCII lower-casing of a string. -/
def asciiLowerStr (s : String) : String :=
  String.mk (s.data.map asciiLowerChar)

/-- Model of Rust `str::parse::<u8>`: an optional leading `+`, then one or
more ASCII digits; the value must fit in 8 bits (≤ 255), otherwise the
parse fails (overflow error). -/
def parseU8 (s : String) : Option Nat :=
  let digits := match s.data with
    | '+' :: rest => rest
    | cs => cs
  if digits = [] then none
  else if digits.all (fun c => 48 ≤ c.toNat ∧ c.toNat ≤ 57) then
    let v := digits.foldl (fun a c => a * 10 + (c.toNat - 48)) 0
    if v ≤ 255 then some v else none
  else none

/-- Fret-token interpretation from `Chord::from_string` (src/chords.rs,
lines 26-32): a case-insensitive `X` is muted (`none`); any other token is
parsed as `u8`, with a failed parse also yielding `none` (the lenient
`.ok()` behaviour of the source). -/
def tokenFret (tok : String) : Option Nat :=
  if eqIgnoreAsciiCase tok "X" then none else parseU8 tok

/-- Boolean test that the first list is a prefix of the second (model of
Rust `str::starts_with` on ASCII data, working on the character lists). -/
def charsStart : List Char → List Char → Bool
  | [], _ => true
  | _ :: _, [] => false
  | a :: as, b :: bs => a = b && charsStart as bs

/-- The 17 root tokens of `Chord::split_name` (src/chords.rs, lines
199-202), two-character accidentals first. -/
def rootsList : List String :=
  ["A#", "Bb", "C#", "Db", "D#", "Eb", "F#", "Gb", "G#", "Ab",
   "A", "B", "C", "D", "E", "F", "G"]

/-- Loop body of `Chord::split_name`: try each root in order; on the first
match return the root and the remainder of the name. -/
def splitNameAux : List String → String → Option (String × String)
  | [], _ => none
  | r :: rs, name =>
    if charsStart r.data name.data then
      some (r, String.mk (name.data.drop r.data.length))
    else splitNameAux rs name

/-- Model of `Chord::split_name` (src/chords.rs, lines 197-210). -/
def splitName (name : String) : Option (String × String) :=
  splitNameAux rootsList name

/-- Model of `Chord::alias_roots` (src/chords.rs, lines 213-227): the
closed 10-entry enharmonic table. -/
def aliasRoots (root : String) : List String :=
  match root with
  | "C#" => ["Db"]
  | "Db" => ["C#"]
  | "D#" => ["Eb"]
  | "Eb" => ["D#"]
  | "F#" => ["Gb"]
  | "Gb" => ["F#"]
  | "G#" => ["Ab"]
  | "Ab" => ["G#"]
  | "A#" => ["Bb"]
  | "Bb" => ["A#"]
  | _ => []

/-- The chord record of src/chords.rs: canonical name, four per-string
fret values (`none` = muted), and the derived alias names. The `[Option
u8; 4]` array is modelled as a list that the parser always builds with
exactly 4 entries. -/
structure Chord where
  name : String
  frets : List (Option Nat)
  alias_names : List String
deriving DecidableEq

/-- Model of `Chord::from_string` (src/chords.rs, lines 17-45): trim the
name, require exactly 4 whitespace-separated fret tokens, interpret each
token with `tokenFret`, split the name into root and quality, and build
the alias names from the enharmonic table. -/
def fromString (full_name frets_str : String) : Option Chord :=
  let name := trimStr full_name
  let parts := splitWS frets_str
  if parts.length ≠ 4 then none
  else
    match splitName name with
    | none => none
    | some (root, qual) =>
      some { name := name
             frets := parts.map tokenFret
             alias_names := (aliasRoots root).map (fun r => r ++ qual) }

/-- Split a character list at the first occurrence of `c`, dropping it
(model of Rust `str::split_once`). -/
def splitOnceAux (c : Char) : List Char → Option (List Char × List Char)
  | [] => none
  | x :: xs =>
    if x = c then some ([], xs)
    else (splitOnceAux c xs).map (fun p => (x :: p.1, p.2))

/-- Model of Rust `str::split_once` on strings. -/
def splitOnce (s : String) (c : Char) : Option (String × String) :=
  (splitOnceAux c s.data).map (fun p => (String.mk p.1, String.mk p.2))

/-- Per-line behaviour of `Chord::load_from_file` (src/chords.rs, lines
54-61): trim the line, skip blank and `#` lines, split at the first `=`
and hand both halves to `from_string`. -/
def parseLine (line : String) : Option Chord :=
  let l := trimStr line
  if l = "" then none
  else if charsStart ['#'] l.data then none
  else
    match splitOnce l '=' with
    | none => none
    | some (n, f) => fromString n f

/-- Whole-catalog construction from the lines of chords.txt
(`Chord::load_from_file`, src/chords.rs, lines 48-63). -/
def loadFromLines (lines : List String) : List Chord :=
  lines.filterMap parseLine

/-- The fretted values of a chord: fret numbers that are neither muted
(`none`) nor open (`some 0`), in string order (the `used` vector of
`Chord::fret_bounds`, src/chords.rs, lines 67-74). -/
def frettedOf (c : Chord) : List Nat :=
  c.frets.filterMap (fun f => match f with
    | some 0 => none
    | none => none
    | some v => some v)

/-- Model of `Chord::fret_bounds` (src/chords.rs, lines 66-82): `none`
when no string is fretted, otherwise the minimum and maximum fretted
value. -/
def fretBounds (c : Chord) : Option (Nat × Nat) :=
  match (frettedOf c).min?, (frettedOf c).max? with
  | some mn, some mx => some (mn, mx)
  | _, _ => none

/-- Model of `Chord::matches_name` (src/chords.rs, lines 85-93): the
input matches the canonical name or any alias, ASCII-case-insensitively. -/
def matchesName (c : Chord) (input : String) : Bool :=
  eqIgnoreAsciiCase c.name input || c.alias_names.any (fun a => eqIgnoreAsciiCase a input)

/-- Catalog lookup as done in `App::lookup` (src/tui.rs, line 60):
first entry whose name or alias matches the input. -/
def lookupChord (catalog : List Chord) (input : String) : Option Chord :=
  catalog.find? (fun c => matchesName c input)

/-- Right-aligned 3-column decimal rendering of a fret number (Rust format
specifier `{:>3}`). -/
def padLeft3 (n : Nat) : String :=
  let s := toString n
  if s.data.length < 3 then String.mk (List.replicate (3 - s.data.length) ' ') ++ s else s

/-- The inclusive fret-number range `start_fret..=end_fret`. -/
def fretCols (startF endF : Nat) : List Nat :=
  List.range' startF (endF + 1 - startF)

/-- The display letters of the four strings, in the order they are stored
(index 0 = G, 1 = C, 2 = E, 3 = A), from `Chord::render_range`. -/
def stringLetters : List String :=
  ["G", "C", "E", "A"]

/-- One string row of the diagram body: display letter, status indicator
(`O` open, `X` muted, space otherwise), separator, and one 3-character
cell per fret column. -/
def renderRow (frets : List (Option Nat)) (cols : List Nat) (i : Nat) : String :=
  let s := stringLetters.getD i ""
  let fv := (frets.getD i none)
  let ind := match fv with
    | some 0 => "O"
    | none => "X"
    | some _ => " "
  s ++ " " ++ ind ++ "| " ++
    String.join (cols.map (fun f => if fv = some f then "●  " else "-  ")) ++ "\n"

/-- Everything below the title line of `Chord::render_range`
(src/chords.rs, lines 103-137): header of fret numbers, dashed divider,
then the four string rows from A (index 3) up to G (index 0). -/
def renderBody (frets : List (Option Nat)) (startF endF : Nat) : String :=
  let cols := fretCols startF endF
  let header := "   " ++ String.join (cols.map padLeft3) ++ "\n"
  let divider := String.mk (List.replicate (3 + (endF + 1 - startF) * 3) '-') ++ "\n"
  let rows := String.join ([3, 2, 1, 0].map (renderRow frets cols))
  header ++ divider ++ rows

/-- Model of `Chord::render_range` (src/chords.rs, lines 96-140): title
line with the canonical name, then the body. -/
def renderRange (c : Chord) (startF endF : Nat) : String :=
  "Chord: " ++ c.name ++ "\n" ++ renderBody c.frets startF endF

/-- The suffix of a character list starting at its first newline (the
slice `&d[pos..]` for `pos = d.find('\n')`), or `none` when there is no
newline. -/
def newlineSuffix : List Char → Option (List Char)
  | [] => none
  | c :: cs => if c = '\n' then some (c :: cs) else newlineSuffix cs

/-- The title replacement of `App::lookup` (src/tui.rs, lines 82-85): when
the diagram contains a newline, replace everything before it with
`"Chord: <key>"` followed by a newline (the slice kept starts with the
found newline itself, so the typed label becomes the title line). -/
def retitle (d key : String) : String :=
  match newlineSuffix d.data with
  | some rest => "Chord: " ++ key ++ "\n" ++ String.mk rest
  | none => d

/-- Accumulation loop of the fret window (src/tui.rs, lines 66-77): over
the selected chords track the running minimum of per-chord minimum
fretted values (seeded with `u8::MAX` = 255), the running maximum of
per-chord maximums (seeded with 0), and whether any chord has an open
string. -/
def windowStep (acc : Nat × Nat × Bool) (c : Chord) : Nat × Nat × Bool :=
  let hasOpen := acc.2.2 || c.frets.any (fun f => f = some 0)
  match fretBounds c with
  | some (mn, mx) => (min acc.1 mn, max acc.2.1 mx, hasOpen)
  | none => (acc.1, acc.2.1, hasOpen)

/-- The fold of `windowStep` over the selected chords, seeded as in
src/tui.rs lines 66-68 (`gmin = u8::MAX`, `gmax = 0`, `has_open =
false`). -/
def windowAccum (sel : List Chord) : Nat × Nat × Bool :=
  sel.foldl windowStep (255, 0, false)

/-- The shared fret window of `App::lookup` (src/tui.rs, lines 78-79):
`start = 1` if any chord has an open string or the running minimum is
below 2, otherwise the running minimum; `end = max(gmax, start + 4)`,
where the `u8` addition `start + 4` wraps modulo 256 (a release build
wraps; a debug build panics at the same spot). -/
def windowStartEnd (sel : List Chord) : Nat × Nat :=
  let acc := windowAccum sel
  let start := if acc.2.2 || acc.1 < 2 then 1 else acc.1
  (start, max acc.2.1 ((start + 4) % 256))

/-- The not-found marker pushed by `App::lookup` (src/tui.rs, line 62). -/
def notFoundMsg (key : String) : String :=
  "Chord not found: " ++ key

/-- The informational message for an empty query (src/tui.rs, line 52). -/
def pleaseEnterMsg : String :=
  "Please enter one or more chords, separated by commas"

/-- Loop body of the term scan in `App::lookup` (src/tui.rs, lines
57-64): trim each comma-separated entry, skip empty keys, append a hit to
the selected list or a not-found marker to the diagrams list. -/
def scanStep (catalog : List Chord) (acc : List (String × Chord) × List String)
    (entry : String) : List (String × Chord) × List String :=
  let key := trimStr entry
  if key = "" then acc
  else
    match lookupChord catalog key with
    | some ch => (acc.1 ++ [(key, ch)], acc.2)
    | none => (acc.1, acc.2 ++ [notFoundMsg key])

/-- Model of the diagram production of `App::lookup` (src/tui.rs, lines
48-88): empty input yields the informational message; otherwise the
comma-separated terms are scanned (misses become not-found markers in the
diagrams list as they are met, hits are collected), and if any chord
resolved, the shared window is computed and one retitled diagram per hit
is appended after the markers. -/
def lookupDiagrams (catalog : List Chord) (input : String) : List String :=
  let raw := trimStr input
  if raw = "" then [pleaseEnterMsg]
  else
    let acc := (splitComma raw).foldl (scanStep catalog) ([], [])
    if acc.1 = [] then acc.2
    else
      let w := windowStartEnd (acc.1.map (fun kc => kc.2))
      acc.2 ++ acc.1.map (fun kc => retitle (renderRange kc.2 w.1 w.2) kc.1)

/-- Packing step of `combine_diagrams_grid` (src/tui.rs, lines 377-391):
state is (closed rows, current row, current row used width); a block
whose addition would exceed `max_width` closes the current row unless the
row is empty. -/
def packStep (maxWidth spacing : Nat) (acc : List (List Nat) × List Nat × Nat)
    (w : Nat) : List (List Nat) × List Nat × Nat :=
  let needed := if acc.2.1 = [] then w else acc.2.2 + spacing + w
  if needed > maxWidth ∧ acc.2.1 ≠ [] then
    (acc.1 ++ [acc.2.1], [w], w)
  else
    (acc.1, acc.2.1 ++ [w], needed)

/-- Row packing of `combine_diagrams_grid` (src/tui.rs, lines 373-394),
operating on the per-block display widths computed in its step 1: greedy
first-fit in input order, closing the trailing row if non-empty. -/
def packRows (widths : List Nat) (maxWidth spacing : Nat) : List (List Nat) :=
  let acc := widths.foldl (packStep maxWidth spacing) ([], [], 0)
  if acc.2.1 = [] then acc.1 else acc.1 ++ [acc.2.1]

/-- Rendered width of one row: sum of the block widths plus `spacing`
columns between each pair of adjacent blocks. -/
def rowWidth (spacing : Nat) (row : List Nat) : Nat :=
  row.sum + spacing * (row.length - 1)

/-- The property claimed of every packed row: it is non-empty, and its
rendered width fits in `maxWidth` except when it is a lone block that by
itself exceeds `maxWidth`. -/
def RowOk (maxWidth spacing : Nat) (row : List Nat) : Prop :=
  row ≠ [] ∧ (rowWidth spacing row ≤ maxWidth ∨ ∃ w, row = [w] ∧ maxWidth < w)

/-- Invariant of the packing fold: every closed row satisfies `RowOk`,
and a non-empty current row satisfies it too, with the tracked used
width agreeing with its rendered width. -/
def PackInv (maxWidth spacing : Nat) (acc : List (List Nat) × List Nat × Nat) : Prop :=
  (∀ r ∈ acc.1, RowOk maxWidth spacing r) ∧
  (acc.2.1 ≠ [] → acc.2.2 = rowWidth spacing acc.2.1 ∧ RowOk maxWidth spacing acc.2.1)

/-- All fretted values across a batch, chord by chord. -/
def frettedValuesSpec (sel : List Chord) : List Nat :=
  sel.flatMap frettedOf

/-- Whether any chord of the batch has an open string (a fret value of
exactly 0). -/
def hasOpenSpec (sel : List Chord) : Bool :=
  sel.any (fun c => c.frets.any (fun f => f = some 0))

/-- Modelled from the claim's wording for the refinement comparison: the
fret window described by the specification, with exact (non-wrapping)
arithmetic — `start` is 1 when a chord has an open string or the minimum
fretted value is below 2, otherwise that minimum; `end` is the maximum of
the largest fretted value and `start + 4`. -/
def specWindow (sel : List Chord) : Nat × Nat :=
  let gmin := (frettedValuesSpec sel).min?.getD 255
  let start := if hasOpenSpec sel || gmin < 2 then 1 else gmin
  (start, max ((frettedValuesSpec sel).max?.getD 0) (start + 4))

/-- Hits of a term scan: the nonempty trimmed terms that resolve, with
the matched catalog entry, in term order. -/
def hitsOf (catalog : List Chord) (terms : List String) : List (String × Chord) :=
  terms.filterMap (fun t =>
    let key := trimStr t
    if key = "" then none
    else
      match lookupChord catalog key with
      | some ch => some (key, ch)
      | none => none)

/-- Misses of a term scan: the not-found markers of the nonempty trimmed
terms that do not resolve, in term order. -/
def missesOf (catalog : List Chord) (terms : List String) : List String :=
  terms.filterMap (fun t =>
    let key := trimStr t
    if key = "" then none
    else
      match lookupChord catalog key with
      | some _ => none
      | none => some (notFoundMsg key))

/-- The 10-entry enharmonic table of `Chord::alias_roots` as a list of
root pairs (each direction listed, matching the 10 match arms). -/
def enharmonicPairs : List (String × String) :=
  [("C#", "Db"), ("Db", "C#"), ("D#", "Eb"), ("Eb", "D#"), ("F#", "Gb"),
   ("Gb", "F#"), ("G#", "Ab"), ("Ab", "G#"), ("A#", "Bb"), ("Bb", "A#")]

/-- The 7 natural root letters. -/
def naturalRoots : List String :=
  ["A", "B", "C", "D", "E", "F", "G"]

/-- The C-major chord of the spec's first end-to-end scenario, as parsed
from the line `C = 0 0 0 3`. -/
def chordC : Chord :=
  { name := "C", frets := [some 0, some 0, some 0, some 3], alias_names := [] }

/-- The C#dim chord of the spec's alias scenario, as parsed from the line
`C#dim = 0 1 0 4`. -/
def chordCsDim : Chord :=
  { name := "C#dim", frets := [some 0, some 1, some 0, some 4], alias_names := ["Dbdim"] }

/-- A chord whose only sounded string is fretted at 252 (parseable, since
252 fits in a `u8`). -/
def chord252 : Chord :=
  { name := "B", frets := [some 252, none, none, none], alias_names := [] }

/-- A chord whose only sounded string is fretted at 253. -/
def chord253 : Chord :=
  { name := "B", frets := [some 253, none, none, none], alias_names := [] }

/-- A chord with all four strings muted, as parsed from `B = X X X X`. -/
def chordAllMuted : Chord :=
  { name := "B", frets := [none, none, none, none], alias_names := [] }

/-! ## Helper lemmas -/

/-- Inversion of `fromString`: a successful parse determines the whole
record from the trimmed name, the token list and the root split. -/
theorem fromString_eq_some {full_name frets_str : String} {c : Chord}
    (h : fromString full_name frets_str = some c) :
    ∃ root qual, splitName (trimStr full_name) = some (root, qual) ∧
      (splitWS frets_str).length = 4 ∧
      c = { name := trimStr full_name,
            frets := (splitWS frets_str).map tokenFret,
            alias_names := (aliasRoots root).map (fun r => r ++ qual) } := by
  unfold fromString at h
  by_cases hl : (splitWS frets_str).length = 4
  · rw [if_neg (not_not_intro hl)] at h
    cases hs : splitName (trimStr full_name) with
    | none => rw [hs] at h; exact absurd h (by simp)
    | some rq =>
      obtain ⟨root, qual⟩ := rq
      rw [hs] at h
      exact ⟨root, qual, rfl, hl, (Option.some.inj h).symm⟩
  · rw [if_pos hl] at h
    exact absurd h (by simp)

/-- Construction side of `fromString`: with 4 tokens and a splittable
name, the parse succeeds and builds exactly this record. -/
theorem fromString_build (full_name frets_str root qual : String)
    (hsplit : splitName (trimStr full_name) = some (root, qual))
    (hlen : (splitWS frets_str).length = 4) :
    fromString full_name frets_str =
      some { name := trimStr full_name,
             frets := (splitWS frets_str).map tokenFret,
             alias_names := (aliasRoots root).map (fun r => r ++ qual) } := by
  unfold fromString
  rw [if_neg (not_not_intro hlen), hsplit]

/-- For every enharmonic pair the name made of the accidental root and any
quality splits back into exactly that root and quality (no earlier entry
of the root list matches). -/
theorem splitName_pair : ∀ p ∈ enharmonicPairs, ∀ qual : String,
    splitName (p.1 ++ qual) = some (p.1, qual) := by
  intro p hp
  fin_cases hp <;> exact fun _ => rfl

/-- The alias table sends each accidental root to its partner alone. -/
theorem aliasRoots_pair : ∀ p ∈ enharmonicPairs, aliasRoots p.1 = [p.2] := by
  decide

/-- The alias table sends each natural root to the empty list. -/
theorem aliasRoots_natural : ∀ r ∈ naturalRoots, aliasRoots r = [] := by
  decide

/-! ## Claim theorems -/

/-- C1, counterexample: the fret token `zz` is neither `X` nor an
integer, yet the definition line still parses — the token alone is
treated as muted and a chord is returned, so the strict drop-the-line
policy claimed is not what the code does. -/
theorem c1_counterexample :
    fromString "C" "zz 0 0 0" =
      some { name := "C", frets := [none, some 0, some 0, some 0], alias_names := [] } ∧
    fromString "C" "zz 0 0 0" ≠ none := by
  exact ⟨rfl, by decide⟩

/-- C1, amended: definition-line parsing follows the lenient fret-token
policy — whenever the fret part splits into exactly 4 tokens and the name
has a recognised root, the line parses, with every token that is neither
a case-insensitive `X` nor a valid `u8` integer treated as muted
(`tokenFret` yields `none` for it); a line is dropped only for a wrong
token count or an unsplittable name. -/
theorem c1_lenient_tokens (full_name frets_str root qual : String)
    (hsplit : splitName (trimStr full_name) = some (root, qual))
    (hlen : (splitWS frets_str).length = 4) :
    fromString full_name frets_str =
      some { name := trimStr full_name,
             frets := (splitWS frets_str).map tokenFret,
             alias_names := (aliasRoots root).map (fun r => r ++ qual) } :=
  fromString_build full_name frets_str root qual hsplit hlen

/-- C1, witness: a concrete malformed token `bad` inside a 4-token line
still yields a chord, with that slot muted. -/
theorem c1_witness :
    fromString "Gm" "0 2 bad 1" =
      some { name := "Gm", frets := [some 0, some 2, none, some 1], alias_names := [] } := by
  exact c1_lenient_tokens "Gm" "0 2 bad 1" "G" "m" rfl rfl

/-- C10: an empty or whitespace-only query produces exactly the single
informational please-enter message, not an error and not a not-found
marker, and no diagram. -/
theorem c10_empty_query (catalog : List Chord) (input : String)
    (h : trimStr input = "") :
    lookupDiagrams catalog input = [pleaseEnterMsg] := by
  simp [lookupDiagrams, h]

/-- C10, witness: a whitespace-only query against a non-empty catalog. -/
theorem c10_witness : lookupDiagrams [chordC] " \t " = [pleaseEnterMsg] := by
  exact c10_empty_query [chordC] " \t " rfl

/-- C5, counterexample: the well-formed line `C = 0 0 0 300` has the
integer token `300`, but the parsed chord's last fret entry is muted
(`none`), not `300` — integer values above 255 are not accepted — and the
parsed name is `"C"`, the text before `=` with its trailing space
trimmed, not the raw text `"C "`. -/
theorem c5_counterexample :
    parseLine "C = 0 0 0 300" =
      some { name := "C", frets := [some 0, some 0, some 0, none], alias_names := [] } ∧
    splitOnce (trimStr "C = 0 0 0 300") '=' = some ("C ", " 0 0 0 300") ∧
    ("C" : String) ≠ "C " := by
  exact ⟨rfl, rfl, by decide⟩

/-- C5, amended round-trip: for a well-formed definition line, the parsed
chord's name equals the text before `=` after trimming surrounding
whitespace, and `frets` has exactly 4 entries matching the 4 tokens after
`=` under `tokenFret` — the parsed integer value for an integer token
that fits in a `u8` (at most 255), absent for an `X` token. -/
theorem c5_roundtrip (line n f root qual : String)
    (hsharp : charsStart ['#'] (trimStr line).data = false)
    (hsplit : splitOnce (trimStr line) '=' = some (n, f))
    (hname : splitName (trimStr n) = some (root, qual))
    (hlen : (splitWS f).length = 4) :
    parseLine line =
      some { name := trimStr n,
             frets := (splitWS f).map tokenFret,
             alias_names := (aliasRoots root).map (fun r => r ++ qual) } := by
  have hne : trimStr line ≠ "" := by
    intro h0
    have hemp : splitOnce "" '=' = none := rfl
    rw [h0, hemp] at hsplit
    exact Option.noConfusion hsplit
  unfold parseLine
  rw [if_neg hne, if_neg (by simp [hsharp]), hsplit]
  exact fromString_build n f root qual hname hlen

/-- C5, witness: a concrete well-formed line with whitespace around `=`,
an `X` token and in-range integer tokens round-trips as described. -/
theorem c5_witness :
    parseLine "  Gsus2 = 0 2 3 X " =
      some { name := "Gsus2", frets := [some 0, some 2, some 3, none], alias_names := [] } := by
  exact c5_roundtrip "  Gsus2 = 0 2 3 X " "Gsus2 " " 0 2 3 X" "G" "sus2" rfl rfl rfl rfl

/-- C6: alias symmetry — the enharmonic table is closed under swapping;
a successfully parsed chord whose name is an accidental root `X` followed
by a quality has exactly the one alias `Y ++ quality` for the partner
root `Y`; and a parsed chord whose name splits to a natural root has no
aliases. -/
theorem c6_alias_symmetry :
    (∀ p ∈ enharmonicPairs, (p.2, p.1) ∈ enharmonicPairs) ∧
    (∀ p ∈ enharmonicPairs, ∀ full_name frets_str qual : String, ∀ c : Chord,
      fromString full_name frets_str = some c → c.name = p.1 ++ qual →
      c.alias_names = [p.2 ++ qual]) ∧
    (∀ full_name frets_str root qual : String, ∀ c : Chord,
      fromString full_name frets_str = some c →
      splitName (trimStr full_name) = some (root, qual) →
      root ∈ naturalRoots → c.alias_names = []) := by
  refine ⟨by decide, ?_, ?_⟩
  · intro p hp full fs qual c hc hname
    obtain ⟨root', qual', hsplit, hlen, rfl⟩ := fromString_eq_some hc
    simp only at hname
    rw [hname, splitName_pair p hp qual] at hsplit
    obtain ⟨h1, h2⟩ := Prod.mk.injEq .. ▸ (Option.some.inj hsplit)
    simp only
    rw [← h1, ← h2, aliasRoots_pair p hp]
    rfl
  · intro full fs root qual c hc hsplit hr
    obtain ⟨root', qual', hsplit', hlen, rfl⟩ := fromString_eq_some hc
    rw [hsplit'] at hsplit
    obtain ⟨h1, h2⟩ := Prod.mk.injEq .. ▸ (Option.some.inj hsplit)
    simp only
    rw [h1, aliasRoots_natural root hr]
    rfl

/-- C6, witness: the parsed `C#dim` chord has exactly the alias
`Dbdim`. -/
theorem c6_witness : chordCsDim.alias_names = ["Db" ++ "dim"] := by
  exact c6_alias_symmetry.2.1 ("C#", "Db") (by decide) "C#dim" "0 1 0 4" "dim" chordCsDim rfl rfl

/-- Appending one block to a non-empty row adds its width and one gap. -/
theorem rowWidth_append (spacing w : Nat) (r : List Nat) (hr : r ≠ []) :
    rowWidth spacing (r ++ [w]) = rowWidth spacing r + spacing + w := by
  cases r with
  | nil => exact absurd rfl hr
  | cons x xs =>
    simp only [rowWidth, List.sum_append, List.sum_cons, List.length_append,
      List.length_cons, List.sum_nil, List.length_nil]
    have h1 : xs.length + 1 + (0 + 1) - 1 = xs.length + 1 := by omega
    have h2 : xs.length + 1 - 1 = xs.length := by omega
    rw [h1, h2, Nat.mul_add, Nat.mul_one]
    ring

/-- A lone block always forms a valid row. -/
theorem rowOk_singleton (maxWidth spacing w : Nat) : RowOk maxWidth spacing [w] := by
  refine ⟨by simp, ?_⟩
  rcases le_or_lt w maxWidth with h | h
  · exact Or.inl (by simpa [rowWidth] using h)
  · exact Or.inr ⟨w, rfl, h⟩

/-- One packing step preserves the packing invariant. -/
theorem packStep_inv (maxWidth spacing : Nat) (acc : List (List Nat) × List Nat × Nat)
    (w : Nat) (h : PackInv maxWidth spacing acc) :
    PackInv maxWidth spacing (packStep maxWidth spacing acc w) := by
  obtain ⟨hrows, hcur⟩ := h
  unfold packStep
  by_cases hc : acc.2.1 = []
  · rw [if_neg (by simp [hc])]
    refine ⟨hrows, fun _ => ?_⟩
    rw [hc]
    have hw : rowWidth spacing [w] = w := by simp [rowWidth]
    exact ⟨by simp [hc, hw], by simpa using rowOk_singleton maxWidth spacing w⟩
  · rw [if_neg hc]
    by_cases hgt : acc.2.2 + spacing + w > maxWidth
    · rw [if_pos ⟨hgt, hc⟩]
      refine ⟨?_, fun _ => ?_⟩
      · intro r hr
        rcases List.mem_append.mp hr with h1 | h2
        · exact hrows r h1
        · rw [List.mem_singleton.mp h2]
          exact (hcur hc).2
      · have hw : rowWidth spacing [w] = w := by simp [rowWidth]
        exact ⟨hw.symm, rowOk_singleton maxWidth spacing w⟩
    · rw [if_neg (fun hand => hgt hand.1)]
      refine ⟨hrows, fun _ => ?_⟩
      have hwid : rowWidth spacing (acc.2.1 ++ [w])
          = acc.2.2 + spacing + w := by
        rw [rowWidth_append spacing w acc.2.1 hc, (hcur hc).1]
      refine ⟨hwid.symm, by simp, Or.inl ?_⟩
      rw [hwid]
      omega

/-- The whole packing fold preserves the packing invariant. -/
theorem packFold_inv (maxWidth spacing : Nat) (ws : List Nat) :
    ∀ acc, PackInv maxWidth spacing acc →
      PackInv maxWidth spacing (ws.foldl (packStep maxWidth spacing) acc) := by
  induction ws with
  | nil => exact fun acc h => h
  | cons w ws ih =>
    intro acc h
    rw [List.foldl_cons]
    exact ih _ (packStep_inv maxWidth spacing acc w h)

/-- C3: every row produced by the grid packer is non-empty, and its
rendered width (sum of block widths plus one `spacing` gap between each
adjacent pair) fits within `max_width`, except for a row consisting of a
single block that alone exceeds `max_width`. -/
theorem c3_row_bound (widths : List Nat) (maxWidth spacing : Nat) (row : List Nat)
    (hrow : row ∈ packRows widths maxWidth spacing) :
    row ≠ [] ∧ (rowWidth spacing row ≤ maxWidth ∨ ∃ w, row = [w] ∧ maxWidth < w) := by
  have hinv : PackInv maxWidth spacing
      (widths.foldl (packStep maxWidth spacing) ([], [], 0)) :=
    packFold_inv maxWidth spacing widths ([], [], 0)
      ⟨fun r hr => absurd hr (List.not_mem_nil r), fun hc => absurd rfl hc⟩
  unfold packRows at hrow
  by_cases hc : (widths.foldl (packStep maxWidth spacing) ([], [], 0)).2.1 = []
  · rw [if_pos hc] at hrow
    exact hinv.1 row hrow
  · rw [if_neg hc] at hrow
    rcases List.mem_append.mp hrow with h1 | h2
    · exact hinv.1 row h1
    · rw [List.mem_singleton.mp h2]
      exact (hinv.2 hc).2

/-- C3, witness: the spec's scenario — three blocks of width 20 with
spacing 2 and `max_width` 45 pack as two rows, the first of which is the
non-empty row `[20, 20]` of rendered width 42 ≤ 45. -/
theorem c3_witness :
    [20, 20] ≠ ([] : List Nat) ∧
    (rowWidth 2 [20, 20] ≤ 45 ∨ ∃ w, [20, 20] = [w] ∧ 45 < w) := by
  exact c3_row_bound [20, 20, 20] 45 2 [20, 20] (by decide)

/-- Packing a valid code point and unpacking it is the identity. -/
theorem char_toNat_ofNat {n : Nat} (h : n.isValidChar) : (Char.ofNat n).toNat = n := by
  unfold Char.ofNat
  rw [dif_pos h]
  rfl

/-- ASCII upper-casing a character does not change its case-folded code
point. -/
theorem lowerNat_upperChar (c : Char) :
    lowerNat (asciiUpperChar c).toNat = lowerNat c.toNat := by
  unfold asciiUpperChar
  by_cases h : 97 ≤ c.toNat ∧ c.toNat ≤ 122
  · rw [if_pos h]
    have hv : (c.toNat - 32).isValidChar := Or.inl (by omega)
    rw [char_toNat_ofNat hv]
    unfold lowerNat
    rw [if_pos (by omega), if_neg (by omega)]
    omega
  · rw [if_neg h]

/-- ASCII lower-casing a character does not change its case-folded code
point. -/
theorem lowerNat_lowerChar (c : Char) :
    lowerNat (asciiLowerChar c).toNat = lowerNat c.toNat := by
  unfold asciiLowerChar
  by_cases h : 65 ≤ c.toNat ∧ c.toNat ≤ 90
  · rw [if_pos h]
    have hv : (c.toNat + 32).isValidChar := Or.inl (by omega)
    rw [char_toNat_ofNat hv]
    unfold lowerNat
    rw [if_neg (by omega), if_pos h]
  · rw [if_neg h]

/-- Case-insensitive comparison is unchanged by ASCII upper-casing of one
side. -/
theorem eqIC_upper (a b : String) :
    eqIgnoreAsciiCase a (asciiUpperStr b) = eqIgnoreAsciiCase a b := by
  have hmap : (asciiUpperStr b).data.map (fun c => lowerNat c.toNat)
      = b.data.map (fun c => lowerNat c.toNat) := by
    rw [show (asciiUpperStr b).data = b.data.map asciiUpperChar from rfl, List.map_map]
    exact List.map_congr_left (fun c _ => lowerNat_upperChar c)
  unfold eqIgnoreAsciiCase
  rw [hmap]

/-- Case-insensitive comparison is unchanged by ASCII lower-casing of one
side. -/
theorem eqIC_lower (a b : String) :
    eqIgnoreAsciiCase a (asciiLowerStr b) = eqIgnoreAsciiCase a b := by
  have hmap : (asciiLowerStr b).data.map (fun c => lowerNat c.toNat)
      = b.data.map (fun c => lowerNat c.toNat) := by
    rw [show (asciiLowerStr b).data = b.data.map asciiLowerChar from rfl, List.map_map]
    exact List.map_congr_left (fun c _ => lowerNat_lowerChar c)
  unfold eqIgnoreAsciiCase
  rw [hmap]

/-- Name matching is unchanged by ASCII upper-casing of the input. -/
theorem matchesName_upper (c : Chord) (input : String) :
    matchesName c (asciiUpperStr input) = matchesName c input := by
  unfold matchesName
  rw [eqIC_upper]
  have hfun : (fun a => eqIgnoreAsciiCase a (asciiUpperStr input))
      = (fun a => eqIgnoreAsciiCase a input) :=
    funext (fun a => eqIC_upper a input)
  rw [hfun]

/-- Name matching is unchanged by ASCII lower-casing of the input. -/
theorem matchesName_lower (c : Chord) (input : String) :
    matchesName c (asciiLowerStr input) = matchesName c input := by
  unfold matchesName
  rw [eqIC_lower]
  have hfun : (fun a => eqIgnoreAsciiCase a (asciiLowerStr input))
      = (fun a => eqIgnoreAsciiCase a input) :=
    funext (fun a => eqIC_lower a input)
  rw [hfun]

/-- C7: lookup is case-insensitive and first-match — looking up the
ASCII-uppercased or ASCII-lowercased input returns the same entry as the
input itself, and a successful lookup returns the first entry in catalog
order whose canonical name or an alias equals the input after case
folding (every earlier entry matches neither). -/
theorem c7_case_insensitive_lookup (catalog : List Chord) (input : String) :
    lookupChord catalog (asciiUpperStr input) = lookupChord catalog input ∧
    lookupChord catalog (asciiLowerStr input) = lookupChord catalog input ∧
    ∀ c : Chord, lookupChord catalog input = some c →
      matchesName c input = true ∧
      ∃ pre post, catalog = pre ++ c :: post ∧
        ∀ b ∈ pre, matchesName b input = false := by
  refine ⟨?_, ?_, ?_⟩
  · unfold lookupChord
    have hfun : (fun c => matchesName c (asciiUpperStr input))
        = (fun c => matchesName c input) :=
      funext (fun c => matchesName_upper c input)
    rw [hfun]
  · unfold lookupChord
    have hfun : (fun c => matchesName c (asciiLowerStr input))
        = (fun c => matchesName c input) :=
      funext (fun c => matchesName_lower c input)
    rw [hfun]
  · intro c hc
    obtain ⟨hp, pre, post, heq, hpre⟩ := List.find?_eq_some.mp hc
    exact ⟨hp, pre, post, heq,
      fun b hb => by simpa using hpre b hb⟩

/-- C7, witness: against a catalog holding the `C#dim` entry, the query
`dbdim` and its ASCII-uppercased and lowercased forms all resolve to the
same entry, which matches and is first. -/
theorem c7_witness :
    lookupChord [chordCsDim] (asciiUpperStr "dbdim") = lookupChord [chordCsDim] "dbdim" ∧
    (matchesName chordCsDim "dbdim" = true ∧
      ∃ pre post, [chordCsDim] = pre ++ chordCsDim :: post ∧
        ∀ b ∈ pre, matchesName b "dbdim" = false) := by
  exact ⟨(c7_case_insensitive_lookup [chordCsDim] "dbdim").1,
    (c7_case_insensitive_lookup [chordCsDim] "dbdim").2.2 chordCsDim (by decide)⟩

/-- Finding the first newline in a list that starts with a newline-free
prefix yields exactly the suffix from that newline on. -/
theorem newlineSuffix_append (l₁ l₂ : List Char) (h : '\n' ∉ l₁) :
    newlineSuffix (l₁ ++ '\n' :: l₂) = some ('\n' :: l₂) := by
  induction l₁ with
  | nil => rfl
  | cons x xs ih =>
    have hx : ¬(x = '\n') := fun he => h (he ▸ List.mem_cons_self x xs)
    rw [List.cons_append]
    show (if x = '\n' then some (x :: (xs ++ '\n' :: l₂)) else newlineSuffix (xs ++ '\n' :: l₂))
      = some ('\n' :: l₂)
    rw [if_neg hx]
    exact ih (fun hm => h (List.mem_cons_of_mem x hm))

/-- C8: for a resolved query term, the rendered block starts with the
title line `Chord: <typed label>` built from the label the user typed,
followed by the body rendered from the canonical catalog entry's fret
data (the retitling keeps everything from the first newline on, so a
blank line separates title and body). -/
theorem c8_typed_label (c : Chord) (key : String) (s e : Nat)
    (h : '\n' ∉ c.name.data) :
    retitle (renderRange c s e) key =
      "Chord: " ++ key ++ "\n" ++ "\n" ++ renderBody c.frets s e := by
  have hnl : '\n' ∉ "Chord: ".data ++ c.name.data := by
    intro hm
    rcases List.mem_append.mp hm with h1 | h2
    · exact absurd h1 (by decide)
    · exact h h2
  have hdata : (renderRange c s e).data
      = ("Chord: ".data ++ c.name.data) ++ '\n' :: (renderBody c.frets s e).data := by
    show ("Chord: " ++ c.name ++ "\n" ++ renderBody c.frets s e).data = _
    simp [String.data_append]
  unfold retitle
  rw [hdata, newlineSuffix_append _ _ hnl]
  apply String.ext
  simp [String.data_append]

/-- C8, witness: the alias scenario — querying `Dbdim` against the
`C#dim` entry titles the diagram with the typed label while the body is
the canonical entry's fret data. -/
theorem c8_witness :
    retitle (renderRange chordCsDim 1 5) "Dbdim" =
      "Chord: " ++ "Dbdim" ++ "\n" ++ "\n" ++ renderBody chordCsDim.frets 1 5 := by
  exact c8_typed_label chordCsDim "Dbdim" 1 5 (by decide)

/-- Folding `min` commutes with lowering the seed. -/
theorem foldl_min_comm (xs : List Nat) : ∀ a x : Nat,
    xs.foldl min (min a x) = min a (xs.foldl min x) := by
  induction xs with
  | nil => intro a x; rfl
  | cons y ys ih =>
    intro a x
    rw [List.foldl_cons, List.foldl_cons, Nat.min_assoc]
    exact ih a (min x y)

/-- Folding `max` commutes with raising the seed. -/
theorem foldl_max_comm (xs : List Nat) : ∀ a x : Nat,
    xs.foldl max (max a x) = max a (xs.foldl max x) := by
  induction xs with
  | nil => intro a x; rfl
  | cons y ys ih =>
    intro a x
    rw [List.foldl_cons, List.foldl_cons, Nat.max_assoc]
    exact ih a (max x y)

/-- Folding `min` over a list equals clamping the seed with the list's
minimum. -/
theorem foldl_min_getD (l : List Nat) (a : Nat) :
    l.foldl min a = min a (l.min?.getD a) := by
  cases l with
  | nil => exact (Nat.min_self a).symm
  | cons x xs =>
    rw [List.foldl_cons, foldl_min_comm]
    rfl

/-- Folding `max` over a list equals clamping the seed with the list's
maximum. -/
theorem foldl_max_getD (l : List Nat) (a : Nat) :
    l.foldl max a = max a (l.max?.getD a) := by
  cases l with
  | nil => exact (Nat.max_self a).symm
  | cons x xs =>
    rw [List.foldl_cons, foldl_max_comm]
    rfl

/-- A chord with no fretted string yields no bounds. -/
theorem fretBounds_nil {c : Chord} (h : frettedOf c = []) : fretBounds c = none := by
  unfold fretBounds
  rw [h]
  rfl

/-- A chord with fretted strings yields fold-computed bounds. -/
theorem fretBounds_cons {c : Chord} {x : Nat} {xs : List Nat}
    (h : frettedOf c = x :: xs) :
    fretBounds c = some (xs.foldl min x, xs.foldl max x) := by
  unfold fretBounds
  rw [h]
  rfl

/-- The window fold computes the fold of `min`/`max` over the batch's
fretted values and the disjunction of the open-string tests. -/
theorem windowFold (sel : List Chord) : ∀ (a b : Nat) (o : Bool),
    sel.foldl windowStep (a, b, o)
      = ((frettedValuesSpec sel).foldl min a, (frettedValuesSpec sel).foldl max b,
         o || hasOpenSpec sel) := by
  induction sel with
  | nil =>
    intro a b o
    simp [frettedValuesSpec, hasOpenSpec]
  | cons c cs ih =>
    intro a b o
    have hfv : frettedValuesSpec (c :: cs) = frettedOf c ++ frettedValuesSpec cs := by
      simp [frettedValuesSpec]
    have hop : hasOpenSpec (c :: cs)
        = (c.frets.any (fun f => f = some 0) || hasOpenSpec cs) := by
      simp [hasOpenSpec]
    rw [List.foldl_cons, hfv, hop]
    rcases hfo : frettedOf c with _ | ⟨x, xs⟩
    · have hstep : windowStep (a, b, o) c
          = (a, b, o || c.frets.any (fun f => f = some 0)) := by
        unfold windowStep
        rw [fretBounds_nil hfo]
      rw [hstep, ih]
      simp [Bool.or_assoc]
    · have hstep : windowStep (a, b, o) c
          = (min a (xs.foldl min x), max b (xs.foldl max x),
             o || c.frets.any (fun f => f = some 0)) := by
        unfold windowStep
        rw [fretBounds_cons hfo]
      rw [hstep, ih, List.foldl_append, List.foldl_append, List.foldl_cons,
        List.foldl_cons, foldl_min_comm xs a x,
        foldl_min_comm (frettedValuesSpec cs) a (xs.foldl min x),
        foldl_max_comm xs b x,
        foldl_max_comm (frettedValuesSpec cs) b (xs.foldl max x)]
      simp [Bool.or_assoc]

/-- The seeded window accumulator in terms of the batch's fretted values
and open-string test. -/
theorem windowAccum_eq (sel : List Chord) :
    windowAccum sel
      = ((frettedValuesSpec sel).foldl min 255, (frettedValuesSpec sel).foldl max 0,
         hasOpenSpec sel) := by
  rw [windowAccum, windowFold]
  simp

/-- The `gmax` fold with seed 0 is exactly the list maximum (or 0). -/
theorem foldl_max_zero (l : List Nat) : l.foldl max 0 = l.max?.getD 0 := by
  rw [foldl_max_getD]
  exact Nat.max_eq_right (Nat.zero_le _)

/-- C2, counterexample: for the batch holding the single chord with one
string fretted at 253 and no open string, the claim predicts window start
253 and end `max(253, 253 + 4) = 257`, but the `u8` computation cannot
produce 257 — the addition wraps (release) or panics (debug), and the
modelled window is `(253, 253)`, not the claimed `(253, 257)`. -/
theorem c2_counterexample :
    windowStartEnd [chord253] = (253, 253) ∧
    specWindow [chord253] = (253, 257) ∧
    windowStartEnd [chord253] ≠ specWindow [chord253] := by
  exact ⟨rfl, rfl, by decide⟩

/-- C2, amended: for every non-empty batch of resolved chords that has an
open string or whose minimum fretted value is at most 251 (so that the
`u8` computation `start + 4` cannot overflow), the shared fret window is
exactly as the claim states: start is 1 if any chord has an open string
or the minimum fretted value is below 2 and otherwise that minimum
(taken as 255 if nothing is fretted), and end is the maximum of the
largest fretted value (0 if none) and `start + 4`. -/
theorem c2_fret_window (sel : List Chord) (_hne : sel ≠ [])
    (hsafe : hasOpenSpec sel = true ∨
      ∃ m, (frettedValuesSpec sel).min? = some m ∧ m ≤ 251) :
    windowStartEnd sel = specWindow sel := by
  simp only [windowStartEnd, specWindow, windowAccum_eq]
  rcases hsafe with ho | ⟨m, hm, hle⟩
  · rw [ho]
    simp [foldl_max_zero]
  · rcases hfv : frettedValuesSpec sel with _ | ⟨x, xs⟩
    · rw [hfv] at hm
      exact absurd hm (by simp)
    · rw [hfv] at hm
      have hmval : xs.foldl min x = m := by
        have hx : (x :: xs).min? = some (xs.foldl min x) := rfl
        rw [hx] at hm
        exact Option.some.inj hm
      have hminfold : List.foldl min 255 (x :: xs) = m := by
        rw [List.foldl_cons, foldl_min_comm, hmval]
        omega
      have hgetD : ((x :: xs).min?.getD 255) = m := by
        show (xs.foldl min x) = m
        exact hmval
      rw [hminfold, hgetD, foldl_max_zero]
      by_cases hcond : (hasOpenSpec sel || decide (m < 2)) = true
      · rw [if_pos hcond]
      · rw [if_neg hcond]
        have hmod : (m + 4) % 256 = m + 4 := Nat.mod_eq_of_lt (by omega)
        rw [hmod]

/-- C2, witness: a single chord with fretted bounds `(3, 3)` and open
strings selects the window start 1 and end `max(3, 5) = 5`, matching the
claim's formulas. -/
theorem c2_witness : windowStartEnd [chordC] = specWindow [chordC] := by
  exact c2_fret_window [chordC] (by decide) (Or.inl (by decide))

/-- A batch in which every string of every chord is muted has no fretted
values and no open string. -/
theorem allMuted_spec (sel : List Chord)
    (h : ∀ c ∈ sel, ∀ f ∈ c.frets, f = none) :
    frettedValuesSpec sel = [] ∧ hasOpenSpec sel = false := by
  induction sel with
  | nil => exact ⟨rfl, rfl⟩
  | cons c cs ih =>
    have hc := h c (List.mem_cons_self c cs)
    have hcs := ih (fun d hd => h d (List.mem_cons_of_mem c hd))
    have hfo : frettedOf c = [] := by
      unfold frettedOf
      refine List.filterMap_eq_nil_iff.mpr (fun f hf => ?_)
      rw [hc f hf]
    have hopen : c.frets.any (fun f => f = some 0) = false := by
      refine List.any_eq_false.mpr (fun f hf => ?_)
      rw [hc f hf]
      simp
    constructor
    · simp [frettedValuesSpec, hfo]
      simpa [frettedValuesSpec] using hcs.1
    · simp [hasOpenSpec, hopen]
      simpa [hasOpenSpec] using hcs.2

/-- The window start in explicit form. -/
theorem windowStart_eq (sel : List Chord) :
    (windowStartEnd sel).1
      = if (hasOpenSpec sel || decide ((frettedValuesSpec sel).foldl min 255 < 2)) = true
        then 1 else (frettedValuesSpec sel).foldl min 255 := by
  simp only [windowStartEnd, windowAccum_eq]

/-- C9, counterexample: the batch holding the single chord fretted at 252
contains a fretted string, yet the window-start computation yields 252
and the `u8` expression `start + 4` still overflows (252 + 4 = 256 >
255), so overflow is not confined to the all-muted case the claim
describes. -/
theorem c9_counterexample :
    frettedValuesSpec [chord252] ≠ [] ∧
    255 < (windowStartEnd [chord252]).1 + 4 := by
  exact ⟨by decide, by decide⟩

/-- C9, amended: in an all-muted batch the running minimum indeed stays
at 255 and `start + 4` overflows the `u8` range, as the claim says; but
the computation stays in range exactly when some chord has an open
string or the minimum fretted value is at most 251 — a batch whose
minimum fretted value is 252 or more (with no open string) also
overflows even though it contains a fretted string. -/
theorem c9_overflow_region (sel : List Chord) :
    ((∀ c ∈ sel, ∀ f ∈ c.frets, f = none) →
      (windowStartEnd sel).1 = 255 ∧ 255 < (windowStartEnd sel).1 + 4) ∧
    ((windowStartEnd sel).1 + 4 ≤ 255 ↔
      (hasOpenSpec sel = true ∨
        ∃ m, (frettedValuesSpec sel).min? = some m ∧ m ≤ 251)) := by
  constructor
  · intro hall
    obtain ⟨hfv, hop⟩ := allMuted_spec sel hall
    have h1 : (windowStartEnd sel).1 = 255 := by
      rw [windowStart_eq, hfv, hop]
      simp
    exact ⟨h1, by omega⟩
  · rcases hfv : frettedValuesSpec sel with _ | ⟨x, xs⟩
    · by_cases ho : hasOpenSpec sel = true
      · have h1 : (windowStartEnd sel).1 = 1 := by
          rw [windowStart_eq, hfv, ho]
          simp
        rw [h1]
        simp [ho]
      · have ho' : hasOpenSpec sel = false := by
          revert ho
          cases hasOpenSpec sel <;> simp
        have h1 : (windowStartEnd sel).1 = 255 := by
          rw [windowStart_eq, hfv, ho']
          simp
        rw [h1]
        simp [ho']
    · have ho2 : ∀ b : Bool, hasOpenSpec sel = b →
          ((windowStartEnd sel).1 + 4 ≤ 255 ↔
            (hasOpenSpec sel = true ∨
              ∃ m, (x :: xs).min? = some m ∧ m ≤ 251)) := by
        intro b hb
        cases b with
        | true =>
          have h1 : (windowStartEnd sel).1 = 1 := by
            rw [windowStart_eq, hfv, hb]
            simp
          rw [h1]
          simp [hb]
        | false =>
          have hmc : (x :: xs).min? = some (xs.foldl min x) := rfl
          have h1 : (windowStartEnd sel).1
              = if List.foldl min 255 (x :: xs) < 2 then 1
                else List.foldl min 255 (x :: xs) := by
            rw [windowStart_eq, hfv, hb]
            simp
          have hgmin : List.foldl min 255 (x :: xs) = min 255 (xs.foldl min x) := by
            rw [List.foldl_cons, foldl_min_comm]
          rw [h1, hgmin, hb, hmc]
          simp only [Bool.false_eq_true, false_or, Option.some.injEq]
          constructor
          · intro hle
            refine ⟨xs.foldl min x, rfl, ?_⟩
            rw [Nat.min_def] at hle
            split_ifs at hle <;> omega
          · rintro ⟨m, rfl, hm⟩
            rw [Nat.min_def]
            split_ifs <;> omega
      exact ho2 (hasOpenSpec sel) rfl

/-- C9, witness: the all-muted batch — a single chord parsed from
`B = X X X X` — drives the window start to 255, and the `u8` addition
`start + 4` exceeds 255. -/
theorem c9_witness :
    (windowStartEnd [chordAllMuted]).1 = 255 ∧
    255 < (windowStartEnd [chordAllMuted]).1 + 4 := by
  exact (c9_overflow_region [chordAllMuted]).1 (by decide)

/-- The term-scan fold appends the hits and misses of the scanned terms
to the running accumulators. -/
theorem scanFold (catalog : List Chord) (ts : List String) :
    ∀ (sel : List (String × Chord)) (ds : List String),
      ts.foldl (scanStep catalog) (sel, ds)
        = (sel ++ hitsOf catalog ts, ds ++ missesOf catalog ts) := by
  induction ts with
  | nil =>
    intro sel ds
    simp [hitsOf, missesOf]
  | cons t ts ih =>
    intro sel ds
    rw [List.foldl_cons]
    by_cases hk : trimStr t = ""
    · have hstep : scanStep catalog (sel, ds) t = (sel, ds) := by
        unfold scanStep
        rw [if_pos hk]
      rw [hstep, ih]
      have hh : hitsOf catalog (t :: ts) = hitsOf catalog ts := by
        unfold hitsOf
        rw [List.filterMap_cons]
        simp [hk]
      have hm : missesOf catalog (t :: ts) = missesOf catalog ts := by
        unfold missesOf
        rw [List.filterMap_cons]
        simp [hk]
      rw [hh, hm]
    · cases hl : lookupChord catalog (trimStr t) with
      | some ch =>
        have hstep : scanStep catalog (sel, ds) t = (sel ++ [(trimStr t, ch)], ds) := by
          unfold scanStep
          rw [if_neg hk, hl]
        have hh : hitsOf catalog (t :: ts) = (trimStr t, ch) :: hitsOf catalog ts := by
          unfold hitsOf
          rw [List.filterMap_cons]
          simp [hk, hl]
        have hm : missesOf catalog (t :: ts) = missesOf catalog ts := by
          unfold missesOf
          rw [List.filterMap_cons]
          simp [hk, hl]
        rw [hstep, ih, hh, hm]
        simp
      | none =>
        have hstep : scanStep catalog (sel, ds) t = (sel, ds ++ [notFoundMsg (trimStr t)]) := by
          unfold scanStep
          rw [if_neg hk, hl]
        have hh : hitsOf catalog (t :: ts) = hitsOf catalog ts := by
          unfold hitsOf
          rw [List.filterMap_cons]
          simp [hk, hl]
        have hm : missesOf catalog (t :: ts)
            = notFoundMsg (trimStr t) :: missesOf catalog ts := by
          unfold missesOf
          rw [List.filterMap_cons]
          simp [hk, hl]
        rw [hstep, ih, hh, hm]
        simp

/-- Each nonempty term contributes exactly one hit or one miss. -/
theorem scanCount (catalog : List Chord) (ts : List String) :
    (missesOf catalog ts).length + (hitsOf catalog ts).length
      = (ts.filter (fun t => trimStr t ≠ "")).length := by
  induction ts with
  | nil => rfl
  | cons t ts ih =>
    by_cases hk : trimStr t = ""
    · have hh : hitsOf catalog (t :: ts) = hitsOf catalog ts := by
        unfold hitsOf
        rw [List.filterMap_cons]
        simp [hk]
      have hm : missesOf catalog (t :: ts) = missesOf catalog ts := by
        unfold missesOf
        rw [List.filterMap_cons]
        simp [hk]
      have hf : (t :: ts).filter (fun u => trimStr u ≠ "")
          = ts.filter (fun u => trimStr u ≠ "") := by
        rw [List.filter_cons]
        simp [hk]
      rw [hh, hm, hf]
      exact ih
    · cases hl : lookupChord catalog (trimStr t) with
      | some ch =>
        have hh : hitsOf catalog (t :: ts) = (trimStr t, ch) :: hitsOf catalog ts := by
          unfold hitsOf
          rw [List.filterMap_cons]
          simp [hk, hl]
        have hm : missesOf catalog (t :: ts) = missesOf catalog ts := by
          unfold missesOf
          rw [List.filterMap_cons]
          simp [hk, hl]
        have hf : (t :: ts).filter (fun u => trimStr u ≠ "")
            = t :: ts.filter (fun u => trimStr u ≠ "") := by
          rw [List.filter_cons]
          simp [hk]
        rw [hh, hm, hf]
        simp only [List.length_cons]
        omega
      | none =>
        have hh : hitsOf catalog (t :: ts) = hitsOf catalog ts := by
          unfold hitsOf
          rw [List.filterMap_cons]
          simp [hk, hl]
        have hm : missesOf catalog (t :: ts)
            = notFoundMsg (trimStr t) :: missesOf catalog ts := by
          unfold missesOf
          rw [List.filterMap_cons]
          simp [hk, hl]
        have hf : (t :: ts).filter (fun u => trimStr u ≠ "")
            = t :: ts.filter (fun u => trimStr u ≠ "") := by
          rw [List.filter_cons]
          simp [hk]
        rw [hh, hm, hf]
        simp only [List.length_cons]
        omega

/-- C4, counterexample: for the query `C,zzz` (first term resolves,
second misses) the first produced result is the not-found marker of the
second term `zzz`, and the diagram of the first term `C` comes last —
results are not in the typed left-to-right order the claim states. -/
theorem c4_counterexample :
    (lookupDiagrams [chordC] "C,zzz").length = 2 ∧
    (lookupDiagrams [chordC] "C,zzz").head? = some (notFoundMsg "zzz") ∧
    (lookupDiagrams [chordC] "C,zzz").getLast?
      = some (retitle (renderRange chordC 1 5) "C") := by
  exact ⟨rfl, rfl, rfl⟩

/-- C4, amended: the batch entry point produces one result per nonempty
query term, but grouped rather than interleaved — all not-found markers
first, in term order, followed by one rendered diagram per resolved term,
in term order (each retitled with its typed label and sharing the batch
window). -/
theorem c4_batch_order (catalog : List Chord) (input : String)
    (h : trimStr input ≠ "") :
    lookupDiagrams catalog input =
      missesOf catalog (splitComma (trimStr input)) ++
      (hitsOf catalog (splitComma (trimStr input))).map (fun kc =>
        retitle (renderRange kc.2
          (windowStartEnd ((hitsOf catalog (splitComma (trimStr input))).map
            (fun kc2 => kc2.2))).1
          (windowStartEnd ((hitsOf catalog (splitComma (trimStr input))).map
            (fun kc2 => kc2.2))).2) kc.1) ∧
    (lookupDiagrams catalog input).length
      = ((splitComma (trimStr input)).filter (fun t => trimStr t ≠ "")).length := by
  have hfold := scanFold catalog (splitComma (trimStr input)) [] []
  have hmain : lookupDiagrams catalog input =
      missesOf catalog (splitComma (trimStr input)) ++
      (hitsOf catalog (splitComma (trimStr input))).map (fun kc =>
        retitle (renderRange kc.2
          (windowStartEnd ((hitsOf catalog (splitComma (trimStr input))).map
            (fun kc2 => kc2.2))).1
          (windowStartEnd ((hitsOf catalog (splitComma (trimStr input))).map
            (fun kc2 => kc2.2))).2) kc.1) := by
    unfold lookupDiagrams
    rw [if_neg h, hfold]
    simp only [List.nil_append]
    by_cases hsel : hitsOf catalog (splitComma (trimStr input)) = []
    · rw [if_pos hsel, hsel]
      simp
    · rw [if_neg hsel]
  refine ⟨hmain, ?_⟩
  rw [hmain, List.length_append, List.length_map]
  exact scanCount catalog (splitComma (trimStr input))

/-- C4, witness: the amended grouping on the concrete mixed query
`C,zzz`. -/
theorem c4_witness :
    lookupDiagrams [chordC] "C,zzz" =
      missesOf [chordC] (splitComma (trimStr "C,zzz")) ++
      (hitsOf [chordC] (splitComma (trimStr "C,zzz"))).map (fun kc =>
        retitle (renderRange kc.2
          (windowStartEnd ((hitsOf [chordC] (splitComma (trimStr "C,zzz"))).map
            (fun kc2 => kc2.2))).1
          (windowStartEnd ((hitsOf [chordC] (splitComma (trimStr "C,zzz"))).map
            (fun kc2 => kc2.2))).2) kc.1) ∧
    (lookupDiagrams [chordC] "C,zzz").length
      = ((splitComma (trimStr "C,zzz")).filter (fun t => trimStr t ≠ "")).length := by
  exact c4_batch_order [chordC] "C,zzz" (by decide)

end UkeTui

